import Mathlib

/-!  Verification of the nmxp-rs NP-packet / Steim1 codec.

The repository source (src/lib.rs) declares the packet data structures
(NpHeader, NpPayloadHeader, NpPayload, NpPacket) together with doc comments
fixing the wire layout (big-endian, byte-packed, packet_size of 243 or 499
bytes, payload_size of 206 or 462 bytes, Steim1 body of 3 or 7 frames of
64 bytes).  The functional codec itself (header layout codec, Steim1 frame
encoder and decoder, packet assembler) is not present in the source; it is
modelled here from the specification, definition by definition.

Bytes are modelled as natural numbers (every buffer the codec itself
produces has all entries below 256); machine integers are Nat / Int with
explicit reduction modulo 2 ^ w where wrap-around matters.
-/

namespace Nmxp

/-! ## Definitions: numeric helpers, data model, and the modelled codec -/

/-- Big-endian 2-byte encoding of a 16-bit unsigned value (masked to 16 bits). -/
def be16 (n : Nat) : List Nat := [n / 256 % 256, n % 256]

/-- Big-endian 4-byte encoding of a 32-bit unsigned value (masked to 32 bits). -/
def be32 (n : Nat) : List Nat :=
  [n / 16777216 % 256, n / 65536 % 256, n / 256 % 256, n % 256]

/-- Big-endian 8-byte encoding of a 64-bit unsigned value (masked to 64 bits). -/
def be64 (n : Nat) : List Nat := be32 (n / 4294967296 % 4294967296) ++ be32 n

/-- Combine a byte list big-endian into a natural number. -/
def beWord (bs : List Nat) : Nat := bs.foldl (fun a b => a * 256 + b) 0

/-- Read a big-endian 16-bit unsigned value at offset `i`. -/
def rd16 (b : List Nat) (i : Nat) : Nat := b.getD i 0 * 256 + b.getD (i + 1) 0

/-- Read a big-endian 32-bit unsigned value at offset `i`. -/
def rd32 (b : List Nat) (i : Nat) : Nat :=
  b.getD i 0 * 16777216 + b.getD (i + 1) 0 * 65536 + b.getD (i + 2) 0 * 256 +
    b.getD (i + 3) 0

/-- Read a big-endian 64-bit unsigned value at offset `i`. -/
def rd64 (b : List Nat) (i : Nat) : Nat := rd32 b i * 4294967296 + rd32 b (i + 4)

/-- Two's-complement interpretation of an 8-bit value. -/
def i8val (n : Nat) : Int := if n % 256 < 128 then (n % 256 : Nat) else (n % 256 : Nat) - 256

/-- Two's-complement interpretation of a 16-bit value. -/
def i16val (n : Nat) : Int :=
  if n % 65536 < 32768 then (n % 65536 : Nat) else (n % 65536 : Nat) - 65536

/-- Two's-complement interpretation of a 32-bit value. -/
def i32val (n : Nat) : Int :=
  if n % 4294967296 < 2147483648 then (n % 4294967296 : Nat)
  else (n % 4294967296 : Nat) - 4294967296

/-- Two's-complement 8-bit image of an integer. -/
def toU8 (z : Int) : Nat := (z % 256).toNat

/-- Two's-complement 16-bit image of an integer. -/
def toU16 (z : Int) : Nat := (z % 65536).toNat

/-- Two's-complement 32-bit image of an integer. -/
def toU32 (z : Int) : Nat := (z % 4294967296).toNat

/-- Reduce an integer into the signed 32-bit window `[-2^31, 2^31)`. -/
def wrap32 (z : Int) : Int := (z + 2147483648) % 4294967296 - 2147483648

/-- Signed range predicates used by the Steim1 width selection. -/
def fits8 (d : Int) : Prop := -128 ≤ d ∧ d < 128

def fits16 (d : Int) : Prop := -32768 ≤ d ∧ d < 32768

def fits32 (d : Int) : Prop := -2147483648 ≤ d ∧ d < 2147483648

instance (d : Int) : Decidable (fits8 d) := by unfold fits8; infer_instance

instance (d : Int) : Decidable (fits16 d) := by unfold fits16; infer_instance

instance (d : Int) : Decidable (fits32 d) := by unfold fits32; infer_instance

/-- Pack a big-endian list of base-4 digits into a natural number. -/
def pack4 (cs : List Nat) : Nat := cs.foldl (fun a c => a * 4 + c) 0

/-- The sixteen 2-bit control codes held in a 32-bit control word,
highest-order pair first. -/
def ctrlCodes (v : Nat) : List Nat :=
  (List.range 16).map fun j => v / 4 ^ (15 - j) % 4

/-- Fuel-driven chunking helper; with fuel at least the list length it
splits the whole list into blocks of `n`. -/
def chunksAux (n : Nat) : Nat → List α → List (List α)
  | 0, _ => []
  | _ + 1, [] => []
  | f + 1, a :: l => (a :: l).take n :: chunksAux n f ((a :: l).drop n)

/-- Split a list into consecutive blocks of `n` elements (last may be short). -/
def chunks (n : Nat) (l : List α) : List (List α) := chunksAux n l.length l

/-- NP packet header (struct `NpHeader` in src/lib.rs). -/
structure NpHeader where
  np_version : Nat × Nat
  packet_size : Nat
  sequence_number : Int
  meta_sequence_number : Int
  start_time : Nat
  latitude : Int
  longitude : Int
  altitude : Int
  data_source : Nat × Nat × Nat × Nat
  band_name : Nat
  packet_extension_block : Int
deriving DecidableEq

/-- Payload header (struct `NpPayloadHeader` in src/lib.rs). -/
structure NpPayloadHeader where
  payload_size : Nat
  payload_name : Nat
  payload_media_type : Nat
  payload_extension_block : Int
  number_samples : Nat × Nat × Nat × Nat
  sample_rate : Nat × Nat × Nat × Nat
deriving DecidableEq

/-- Payload (struct `NpPayload` in src/lib.rs). -/
structure NpPayload where
  header : NpPayloadHeader
  body : List Nat
deriving DecidableEq

/-- Complete packet (struct `NpPacket` in src/lib.rs). -/
structure NpPacket where
  header : NpHeader
  payload : NpPayload
deriving DecidableEq

/-- Modelled from the spec: the typed decode/encode failures of section 7
(the source contains no error type). -/
inductive NpError where
  | MalformedHeader
  | UnsupportedMediaType
  | SizeMismatch
  | LengthMismatch
  | CompressionIntegrityError (recovered : List Int)
  | EncodingOverflow
deriving DecidableEq

/-- Declared sample count: the low two bytes of the tagged
`number_samples` field, big-endian. -/
def nsCount (ph : NpPayloadHeader) : Nat :=
  ph.number_samples.2.2.1 * 256 + ph.number_samples.2.2.2

/-- Modelled from the spec: `encode_header` of section 4.1 (missing from
the source).  Serializes the NpHeader fields big-endian, byte-packed,
in declaration order.  Multi-byte numeric fields are masked to their
width; single-byte fields are emitted as given. -/
def encode_header (h : NpHeader) : List Nat :=
  [h.np_version.1, h.np_version.2] ++ be16 h.packet_size ++
    be32 (toU32 h.sequence_number) ++ be32 (toU32 h.meta_sequence_number) ++
    be64 h.start_time ++ be32 (toU32 h.latitude) ++ be32 (toU32 h.longitude) ++
    be16 (toU16 h.altitude) ++
    [h.data_source.1, h.data_source.2.1, h.data_source.2.2.1, h.data_source.2.2.2] ++
    [h.band_name] ++ be16 (toU16 h.packet_extension_block)

/-- Modelled from the spec: `decode_header` of section 4.1 (missing from
the source).  Fails with `MalformedHeader` when the input is shorter than
the fixed header block or the magic bytes are not `N`, `P`. -/
def decode_header (b : List Nat) : Except NpError NpHeader :=
  if b.length < 37 then .error .MalformedHeader
  else if b.getD 0 0 = 78 ∧ b.getD 1 0 = 80 then
    .ok { np_version := (b.getD 0 0, b.getD 1 0)
          packet_size := rd16 b 2
          sequence_number := i32val (rd32 b 4)
          meta_sequence_number := i32val (rd32 b 8)
          start_time := rd64 b 12
          latitude := i32val (rd32 b 20)
          longitude := i32val (rd32 b 24)
          altitude := i16val (rd16 b 28)
          data_source := (b.getD 30 0, b.getD 31 0, b.getD 32 0, b.getD 33 0)
          band_name := b.getD 34 0
          packet_extension_block := i16val (rd16 b 35) }
  else .error .MalformedHeader

/-- Modelled from the spec: payload-header serialization of section 4.1
(missing from the source). -/
def encode_payload_header (ph : NpPayloadHeader) : List Nat :=
  be16 ph.payload_size ++ [ph.payload_name, ph.payload_media_type] ++
    be16 (toU16 ph.payload_extension_block) ++
    [ph.number_samples.1, ph.number_samples.2.1,
      ph.number_samples.2.2.1, ph.number_samples.2.2.2] ++
    [ph.sample_rate.1, ph.sample_rate.2.1,
      ph.sample_rate.2.2.1, ph.sample_rate.2.2.2]

/-- Modelled from the spec: payload-header parsing of section 4.1
(missing from the source).  Fails with `MalformedHeader` when shorter
than the fixed payload-header block. -/
def decode_payload_header (b : List Nat) : Except NpError NpPayloadHeader :=
  if b.length < 14 then .error .MalformedHeader
  else
    .ok { payload_size := rd16 b 0
          payload_name := b.getD 2 0
          payload_media_type := b.getD 3 0
          payload_extension_block := i16val (rd16 b 4)
          number_samples := (b.getD 6 0, b.getD 7 0, b.getD 8 0, b.getD 9 0)
          sample_rate := (b.getD 10 0, b.getD 11 0, b.getD 12 0, b.getD 13 0) }

/-- A packed group of differences occupying one 32-bit data word:
one 32-bit value (code 11), two 16-bit values (code 10), or
four 8-bit values (code 01). -/
inductive SGroup where
  | g1 (d0 : Int)
  | g2 (d0 d1 : Int)
  | g4 (d0 d1 d2 d3 : Int)
deriving DecidableEq

/-- The 2-bit control code of a group. -/
def groupCode : SGroup → Nat
  | .g4 _ _ _ _ => 1
  | .g2 _ _ => 2
  | .g1 _ => 3

/-- The 4-byte big-endian wire image of a group. -/
def groupBytes : SGroup → List Nat
  | .g4 d0 d1 d2 d3 => [toU8 d0, toU8 d1, toU8 d2, toU8 d3]
  | .g2 d0 d1 => be16 (toU16 d0) ++ be16 (toU16 d1)
  | .g1 d0 => be32 (toU32 d0)

/-- The differences held by a group, in order. -/
def groupDiffs : SGroup → List Int
  | .g4 d0 d1 d2 d3 => [d0, d1, d2, d3]
  | .g2 d0 d1 => [d0, d1]
  | .g1 d0 => [d0]

/-- The width constraint under which a group's wire image is lossless. -/
def GroupFits : SGroup → Prop
  | .g4 d0 d1 d2 d3 => fits8 d0 ∧ fits8 d1 ∧ fits8 d2 ∧ fits8 d3
  | .g2 d0 d1 => fits16 d0 ∧ fits16 d1
  | .g1 d0 => fits32 d0

/-- Modelled from the spec: the greedy width selection of section 4.3
(missing from the source).  Prefers four 8-bit differences per word, falls
back to two 16-bit, then one 32-bit. -/
def packDiffs : List Int → List SGroup
  | [] => []
  | [d0] => [.g1 d0]
  | [d0, d1] =>
    if fits16 d0 ∧ fits16 d1 then [.g2 d0 d1] else .g1 d0 :: packDiffs [d1]
  | [d0, d1, d2] =>
    if fits16 d0 ∧ fits16 d1 then .g2 d0 d1 :: packDiffs [d2]
    else .g1 d0 :: packDiffs [d1, d2]
  | d0 :: d1 :: d2 :: d3 :: rest =>
    if fits8 d0 ∧ fits8 d1 ∧ fits8 d2 ∧ fits8 d3 then
      .g4 d0 d1 d2 d3 :: packDiffs rest
    else if fits16 d0 ∧ fits16 d1 then .g2 d0 d1 :: packDiffs (d2 :: d3 :: rest)
    else .g1 d0 :: packDiffs (d1 :: d2 :: d3 :: rest)

/-- Successive differences of a sample sequence, wrapped into the signed
32-bit window (32-bit wrap-around arithmetic). -/
def wdiffs : List Int → List Int
  | [] => []
  | [_] => []
  | x :: y :: r => wrap32 (y - x) :: wdiffs (y :: r)

/-- Running 32-bit cumulative sum of a difference list from a start value. -/
def cumsumFrom (a : Int) : List Int → List Int
  | [] => []
  | d :: ds => wrap32 (a + d) :: cumsumFrom (wrap32 (a + d)) ds

/-- A frame slot: its 2-bit control code and its 4-byte data word. -/
def groupSlot (g : SGroup) : Nat × List Nat := (groupCode g, groupBytes g)

/-- Build one 64-byte frame from at most fifteen slots; unused trailing
word slots are zero-filled and marked with control code 00. -/
def mkFrame (slots : List (Nat × List Nat)) : List Nat :=
  let padded := slots ++ List.replicate (15 - slots.length) (0, [0, 0, 0, 0])
  be32 (pack4 (0 :: padded.map Prod.fst)) ++ (padded.map Prod.snd).flatten

/-- Fuel-driven frame builder: fifteen slots per frame. -/
def buildFramesAux : Nat → List (Nat × List Nat) → List Nat
  | 0, _ => []
  | _ + 1, [] => []
  | f + 1, s :: slots => mkFrame ((s :: slots).take 15) ++
      buildFramesAux f ((s :: slots).drop 15)

/-- Lay the slot stream out into consecutive 64-byte frames. -/
def buildFrames (slots : List (Nat × List Nat)) : List Nat :=
  buildFramesAux slots.length slots

/-- Modelled from the spec: the Steim1 frame encoder of section 4.3
(missing from the source).  The first frame reserves its first two data
words for the forward and reverse integration constants (first and last
sample), then difference groups follow, fifteen words per frame. -/
def Steim1Encode (s : List Int) : List Nat :=
  match s with
  | [] => []
  | x0 :: _ =>
    buildFrames ((3, be32 (toU32 x0)) :: (3, be32 (toU32 (s.getLastD 0))) ::
      (packDiffs (wdiffs s)).map groupSlot)

/-- Modelled from the spec: interpretation of one data word under its
2-bit control code (section 4.2): code 01 holds four signed 8-bit
differences, 10 two signed 16-bit differences, 11 one signed 32-bit
difference. -/
def decodeWordDiffs (c : Nat) (w : List Nat) : List Int :=
  if c = 1 then [i8val (w.getD 0 0), i8val (w.getD 1 0), i8val (w.getD 2 0), i8val (w.getD 3 0)]
  else if c = 2 then
    [i16val (w.getD 0 0 * 256 + w.getD 1 0), i16val (w.getD 2 0 * 256 + w.getD 3 0)]
  else [i32val (beWord w)]

/-- Walk the (code, word) pairs of one frame; control code 00 stops the
frame early. -/
def wordLoop : List (Nat × List Nat) → List Int
  | [] => []
  | (c, w) :: rest => if c = 0 then [] else decodeWordDiffs c w ++ wordLoop rest

/-- The fifteen (control code, data word) pairs of one 64-byte frame. -/
def framePairs (f : List Nat) : List (Nat × List Nat) :=
  ((ctrlCodes (beWord (f.take 4))).drop 1).zip (chunks 4 (f.drop 4))

/-- Differences of the first frame of a body: its first two data words
hold the integration constants and are skipped. -/
def frameDiffsFirst (f : List Nat) : List Int := wordLoop ((framePairs f).drop 2)

/-- Differences of a non-first frame: all fifteen data words participate. -/
def frameDiffsRest (f : List Nat) : List Int := wordLoop (framePairs f)

/-- Forward integration constant X0: the first data word of the first
frame, read as a plain 32-bit value. -/
def bodyX0 (body : List Nat) : Int := i32val (beWord ((body.drop 4).take 4))

/-- Reverse integration constant Xn: the second data word of the first
frame, read as a plain 32-bit value. -/
def bodyXn (body : List Nat) : Int := i32val (beWord ((body.drop 8).take 4))

/-- All differences of a Steim1 body, frame by frame. -/
def bodyDiffs (body : List Nat) : List Int :=
  match chunks 64 body with
  | [] => []
  | f0 :: fs => frameDiffsFirst f0 ++ (fs.map frameDiffsRest).flatten

/-- The sample sequence reconstructed from a body for a declared count
`n`: X0 followed by the running cumulative sum of the differences. -/
def steim1Samples (body : List Nat) (n : Nat) : List Int :=
  bodyX0 body :: cumsumFrom (bodyX0 body) ((bodyDiffs body).take (n - 1))

/-- Modelled from the spec: the Steim1 frame decoder of section 4.2
(missing from the source).  Body length must be a multiple of the 64-byte
frame size; a frame stream exhausted before the declared sample count is
a `LengthMismatch`; a final cumulative value different from the declared
reverse integration constant is a `CompressionIntegrityError` carrying
the recovered sequence. -/
def Steim1Decode (body : List Nat) (n : Nat) : Except NpError (List Int) :=
  if body.length % 64 ≠ 0 then .error .SizeMismatch
  else if n = 0 then .ok []
  else if body.length = 0 then .error .LengthMismatch
  else if (bodyDiffs body).length + 1 < n then .error .LengthMismatch
  else if (steim1Samples body n).getLastD 0 ≠ bodyXn body then
    .error (.CompressionIntegrityError (steim1Samples body n))
  else .ok (steim1Samples body n)

/-- Modelled from the spec: `encode_packet` of section 4.4 (missing from
the source).  Serializes header, payload header and body in order with no
gaps. -/
def encode_packet (p : NpPacket) : List Nat :=
  encode_header p.header ++ encode_payload_header p.payload.header ++ p.payload.body

/-- Modelled from the spec: `decode_packet` of section 4.4 (missing from
the source).  Parses the header, cross-checks the declared packet size
against the buffer length, parses the payload header, verifies the Steim1
media type, decodes the body, and validates the cross-field invariants. -/
def decode_packet (bytes : List Nat) : Except NpError NpPacket :=
  match decode_header bytes with
  | .error e => .error e
  | .ok h =>
    if bytes.length ≠ h.packet_size then .error .SizeMismatch
    else match decode_payload_header (bytes.drop 37) with
      | .error e => .error e
      | .ok ph =>
        if ph.payload_media_type ≠ 131 then .error .UnsupportedMediaType
        else match Steim1Decode (bytes.drop 51) (nsCount ph) with
          | .error e => .error e
          | .ok samples =>
            if h.packet_size ≠ 37 + ph.payload_size then .error .SizeMismatch
            else if samples.length ≠ nsCount ph then .error .LengthMismatch
            else .ok ⟨h, ⟨ph, bytes.drop 51⟩⟩

/-- Range constraints that make an NpPacket serializable losslessly:
every field value fits its wire width, the magic and media-type markers
are present, the declared sizes match the body length, and the body is a
well-formed Steim1 stream for the declared sample count. -/
def ValidPacket (p : NpPacket) : Prop :=
  p.header.np_version = (78, 80) ∧
  p.header.packet_size = 51 + p.payload.body.length ∧
  p.header.packet_size < 65536 ∧
  fits32 p.header.sequence_number ∧
  fits32 p.header.meta_sequence_number ∧
  p.header.start_time < 18446744073709551616 ∧
  fits32 p.header.latitude ∧
  fits32 p.header.longitude ∧
  fits16 p.header.altitude ∧
  p.header.data_source.1 < 256 ∧ p.header.data_source.2.1 < 256 ∧
  p.header.data_source.2.2.1 < 256 ∧ p.header.data_source.2.2.2 < 256 ∧
  p.header.band_name < 256 ∧
  fits16 p.header.packet_extension_block ∧
  p.payload.header.payload_size = 14 + p.payload.body.length ∧
  p.payload.header.payload_name < 256 ∧
  p.payload.header.payload_media_type = 131 ∧
  fits16 p.payload.header.payload_extension_block ∧
  p.payload.header.number_samples.1 < 256 ∧
  p.payload.header.number_samples.2.1 < 256 ∧
  p.payload.header.number_samples.2.2.1 < 256 ∧
  p.payload.header.number_samples.2.2.2 < 256 ∧
  p.payload.header.sample_rate.1 < 256 ∧
  p.payload.header.sample_rate.2.1 < 256 ∧
  p.payload.header.sample_rate.2.2.1 < 256 ∧
  p.payload.header.sample_rate.2.2.2 < 256 ∧
  (Steim1Decode p.payload.body (nsCount p.payload.header)).isOk

instance {ε α : Type} [DecidableEq ε] [DecidableEq α] : DecidableEq (Except ε α) := by
  intro x y
  cases x <;> cases y
  case error.error e f =>
    exact if h : e = f then .isTrue (by simp [h]) else .isFalse (by simp [h])
  case ok.ok a b =>
    exact if h : a = b then .isTrue (by simp [h]) else .isFalse (by simp [h])
  case error.ok e a => exact .isFalse (by simp)
  case ok.error a e => exact .isFalse (by simp)

/-- Well-formed slots: a nonzero 2-bit code and a 4-byte word. -/
def GoodSlots (s : List (Nat × List Nat)) : Prop :=
  ∀ p ∈ s, p.1 ≠ 0 ∧ p.1 < 4 ∧ p.2.length = 4

/-- The padded slot list of a frame. -/
def padSlots (s : List (Nat × List Nat)) : List (Nat × List Nat) :=
  s ++ List.replicate (15 - s.length) (0, [0, 0, 0, 0])

/-- A three-sample sequence whose Steim1 body is a single frame. -/
def demoSamples : List Int := [1, 3, 2]

def demoBody : List Nat := Steim1Encode demoSamples

def demoHeader : NpHeader :=
  { np_version := (78, 80), packet_size := 115, sequence_number := 0,
    meta_sequence_number := -1, start_time := 0, latitude := 0, longitude := 0,
    altitude := 0, data_source := (232, 11, 0, 1), band_name := 137,
    packet_extension_block := 0 }

def demoPayloadHeader : NpPayloadHeader :=
  { payload_size := 78, payload_name := 0, payload_media_type := 131,
    payload_extension_block := 8, number_samples := (5, 135, 0, 3),
    sample_rate := (5, 133, 0, 100) }

def demoPacket : NpPacket := ⟨demoHeader, ⟨demoPayloadHeader, demoBody⟩⟩

def demoBytes : List Nat := encode_packet demoPacket

/-- The demo body with the low byte of the embedded reverse integration
constant corrupted from 2 to 9. -/
def demoBadBody : List Nat := demoBody.set 11 9

/-- The demo packet with a non-Steim1 media-type byte. -/
def demoBadMediaHeader : NpPayloadHeader :=
  { demoPayloadHeader with payload_media_type := 130 }

def demoBadMediaBytes : List Nat :=
  encode_packet ⟨demoHeader, ⟨demoBadMediaHeader, demoBody⟩⟩

/-- Control-code lists for the first demo frame: the second differs only
in the codes of the two integration-constant positions. -/
def demoCodes : List Nat := [0, 3, 3, 2, 0, 0, 0, 0, 0, 0, 0, 0, 0, 0, 0, 0]

def demoCodesAlt : List Nat := [0, 1, 2, 2, 0, 0, 0, 0, 0, 0, 0, 0, 0, 0, 0, 0]

/-- A 100-byte buffer that declares a 499-byte packet: a truncation of a
seismic packet. -/
def demoTruncated : List Nat := 78 :: 80 :: 1 :: 243 :: List.replicate 96 0

/-! ## Theorems -/

theorem i8val_toU8 {d : Int} (h : fits8 d) : i8val (toU8 d) = d := by
  rcases h with ⟨h1, h2⟩
  unfold i8val toU8
  split <;> omega

theorem i16val_toU16 {d : Int} (h : fits16 d) : i16val (toU16 d) = d := by
  rcases h with ⟨h1, h2⟩
  unfold i16val toU16
  split <;> omega

theorem i32val_toU32 {d : Int} (h : fits32 d) : i32val (toU32 d) = d := by
  rcases h with ⟨h1, h2⟩
  unfold i32val toU32
  split <;> omega

theorem toU8_lt (z : Int) : toU8 z < 256 := by unfold toU8; omega

theorem toU16_lt (z : Int) : toU16 z < 65536 := by unfold toU16; omega

theorem toU32_lt (z : Int) : toU32 z < 4294967296 := by unfold toU32; omega

theorem wrap32_fits32 (z : Int) : fits32 (wrap32 z) := by
  unfold fits32 wrap32; omega

theorem wrap32_cancel {x y : Int} (hx : fits32 x) (hy : fits32 y) :
    wrap32 (x + wrap32 (y - x)) = y := by
  rcases hx with ⟨hx1, hx2⟩; rcases hy with ⟨hy1, hy2⟩
  unfold wrap32
  omega

theorem beWord_be32 (n : Nat) : beWord (be32 n) = n % 4294967296 := by
  unfold beWord be32
  simp only [List.foldl]
  omega

theorem be32_length (n : Nat) : (be32 n).length = 4 := by unfold be32; rfl

theorem be16_length (n : Nat) : (be16 n).length = 2 := by unfold be16; rfl

theorem be64_length (n : Nat) : (be64 n).length = 8 := by
  unfold be64; simp [be32_length]

theorem pack4_foldl (a : Nat) (cs : List Nat) :
    cs.foldl (fun a c => a * 4 + c) a = a * 4 ^ cs.length + pack4 cs := by
  induction cs generalizing a with
  | nil => simp [pack4]
  | cons c cs ih =>
    simp only [List.foldl_cons, List.length_cons, pack4]
    rw [ih, ih]
    ring

theorem pack4_cons (c : Nat) (cs : List Nat) :
    pack4 (c :: cs) = c * 4 ^ cs.length + pack4 cs := by
  unfold pack4
  simpa using pack4_foldl c cs

theorem pack4_lt {cs : List Nat} (h : ∀ c ∈ cs, c < 4) : pack4 cs < 4 ^ cs.length := by
  induction cs with
  | nil => simp [pack4]
  | cons c cs ih =>
    rw [pack4_cons]
    have hc : c < 4 := h c (by simp)
    have hr : pack4 cs < 4 ^ cs.length := ih fun x hx => h x (by simp [hx])
    have : c * 4 ^ cs.length ≤ 3 * 4 ^ cs.length :=
      Nat.mul_le_mul_right _ (by omega)
    calc c * 4 ^ cs.length + pack4 cs < c * 4 ^ cs.length + 4 ^ cs.length := by omega
    _ ≤ 3 * 4 ^ cs.length + 4 ^ cs.length := by omega
    _ = 4 ^ (cs.length + 1) := by ring
    _ = 4 ^ (c :: cs).length := by simp

theorem pack4_digit {cs : List Nat} (h : ∀ c ∈ cs, c < 4) :
    ∀ j, j < cs.length → pack4 cs / 4 ^ (cs.length - 1 - j) % 4 = cs.getD j 0 := by
  induction cs with
  | nil => intro j hj; simp at hj
  | cons c cs ih =>
    intro j hj
    rw [pack4_cons]
    match j with
    | 0 =>
      have hp : pack4 cs < 4 ^ cs.length := pack4_lt fun x hx => h x (by simp [hx])
      have hlen : (c :: cs).length - 1 - 0 = cs.length := by simp
      rw [hlen]
      have hcomm : c * 4 ^ cs.length + pack4 cs = 4 ^ cs.length * c + pack4 cs := by
        ring
      rw [hcomm, Nat.mul_add_div (by positivity : (0:Nat) < 4 ^ cs.length),
        Nat.div_eq_of_lt hp]
      have : c % 4 = c := Nat.mod_eq_of_lt (h c (by simp))
      simp [this]
    | j + 1 =>
      have hj' : j < cs.length := by simpa using hj
      have hlen : (c :: cs).length - 1 - (j + 1) = cs.length - 1 - j := by simp; omega
      rw [hlen]
      have hsplit : cs.length = (j + 1) + (cs.length - 1 - j) := by omega
      have hc4 : c * 4 ^ cs.length =
          4 ^ (cs.length - 1 - j) * (c * 4 ^ (j + 1)) := by
        conv_lhs => rw [hsplit]
        ring
      rw [hc4, Nat.mul_add_div (by positivity : (0:Nat) < 4 ^ (cs.length - 1 - j))]
      have hshape : c * 4 ^ (j + 1) + pack4 cs / 4 ^ (cs.length - 1 - j) =
          pack4 cs / 4 ^ (cs.length - 1 - j) + c * 4 ^ j * 4 := by
        rw [pow_succ]; ring
      rw [hshape, Nat.add_mul_mod_self_right]
      rw [ih (fun x hx => h x (by simp [hx])) j hj']
      simp

theorem ctrlCodes_pack4 {cs : List Nat} (hlen : cs.length = 16)
    (h : ∀ c ∈ cs, c < 4) : ctrlCodes (pack4 cs) = cs := by
  have hbound : pack4 cs < 4294967296 := by
    have := pack4_lt h
    rw [hlen] at this
    exact lt_of_lt_of_le this (by norm_num)
  apply List.ext_getElem
  · simp [ctrlCodes, hlen]
  · intro j hj hj'
    have hj16 : j < 16 := by simpa [ctrlCodes] using hj
    simp only [ctrlCodes, List.getElem_map, List.getElem_range]
    have := pack4_digit h j (by omega)
    rw [hlen] at this
    have h15 : 16 - 1 - j = 15 - j := by omega
    rw [h15] at this
    rw [this, List.getD_eq_getElem cs 0 hj']

theorem chunksAux_congr {n : Nat} (hn : 0 < n) :
    ∀ (f f' : Nat) (l : List α), l.length ≤ f → l.length ≤ f' →
      chunksAux n f l = chunksAux n f' l := by
  intro f
  induction f with
  | zero =>
    intro f' l hf hf'
    have : l = [] := List.eq_nil_of_length_eq_zero (by omega)
    subst this
    cases f' <;> rfl
  | succ f ih =>
    intro f' l hf hf'
    match l, f' with
    | [], 0 => rfl
    | [], f' + 1 => rfl
    | a :: l, f' + 1 =>
      simp only [chunksAux]
      congr 1
      apply ih
      · simp only [List.length_drop, List.length_cons] at hf ⊢
        omega
      · simp only [List.length_drop, List.length_cons] at hf' ⊢
        omega

theorem chunks_nil (n : Nat) : chunks n ([] : List α) = [] := rfl

theorem chunks_append {n : Nat} (hn : 0 < n) {a : List α} (b : List α)
    (ha : a.length = n) : chunks n (a ++ b) = a :: chunks n b := by
  obtain ⟨m, rfl⟩ : ∃ m, n = m + 1 := ⟨n - 1, by omega⟩
  obtain ⟨x, a', rfl⟩ : ∃ x a', a = x :: a' := by
    cases a with
    | nil => simp at ha
    | cons x a' => exact ⟨x, a', rfl⟩
  unfold chunks
  have hlen : (x :: a' ++ b).length = (m + b.length) + 1 := by
    simp at ha ⊢; omega
  rw [hlen]
  simp only [List.cons_append, chunksAux]
  change List.take (m + 1) ((x :: a') ++ b) ::
      chunksAux (m + 1) (m + b.length) (List.drop (m + 1) ((x :: a') ++ b)) = _
  rw [List.take_left' ha, List.drop_left' ha]
  congr 1
  exact chunksAux_congr hn _ _ b (by omega) le_rfl

theorem chunks_join {n : Nat} (hn : 0 < n) :
    ∀ ws : List (List α), (∀ w ∈ ws, w.length = n) → chunks n ws.flatten = ws := by
  intro ws
  induction ws with
  | nil => intro _; simp [chunks_nil]
  | cons w ws ih =>
    intro h
    rw [List.flatten_cons, chunks_append hn _ (h w (by simp))]
    rw [ih fun x hx => h x (by simp [hx])]

theorem encode_header_length (h : NpHeader) : (encode_header h).length = 37 := by
  simp [encode_header, be16, be32, be64]

theorem encode_payload_header_length (ph : NpPayloadHeader) :
    (encode_payload_header ph).length = 14 := by
  simp [encode_payload_header, be16]

theorem getLastD_cons_mem (x : Int) (l : List Int) (d : Int) :
    (x :: l).getLastD d ∈ x :: l := by
  induction l generalizing x with
  | nil => simp
  | cons y l ih =>
    rw [List.getLastD_cons]
    exact List.mem_cons_of_mem x (ih y)

theorem getLastD_cons_irrel (x : Int) (l : List Int) (d d' : Int) :
    (x :: l).getLastD d = (x :: l).getLastD d' := by
  induction l generalizing x with
  | nil => simp
  | cons y l ih =>
    rw [List.getLastD_cons d x (y :: l), List.getLastD_cons d' x (y :: l)]

theorem zip_fst_snd {α β : Type} (l : List (α × β)) :
    (l.map Prod.fst).zip (l.map Prod.snd) = l := by
  induction l with
  | nil => rfl
  | cons p l ih => simp [ih]

theorem cumsumFrom_length (a : Int) (ds : List Int) :
    (cumsumFrom a ds).length = ds.length := by
  induction ds generalizing a with
  | nil => rfl
  | cons d ds ih => simp [cumsumFrom, ih]

theorem steim1Samples_length {body : List Nat} {n : Nat}
    (h : n - 1 ≤ (bodyDiffs body).length) (hn : 0 < n) :
    (steim1Samples body n).length = n := by
  unfold steim1Samples
  simp [cumsumFrom_length]
  omega

theorem groupBytes_length (g : SGroup) : (groupBytes g).length = 4 := by
  cases g <;> simp [groupBytes, be16, be32]

theorem groupCode_pos (g : SGroup) : groupCode g ≠ 0 := by
  cases g <;> simp [groupCode]

theorem groupCode_lt (g : SGroup) : groupCode g < 4 := by
  cases g <;> simp [groupCode]

theorem goodSlots_groups (gs : List SGroup) : GoodSlots (gs.map groupSlot) := by
  intro p hp
  obtain ⟨g, _, rfl⟩ := List.mem_map.mp hp
  exact ⟨groupCode_pos g, groupCode_lt g, groupBytes_length g⟩

theorem decode_groupSlot {g : SGroup} (h : GroupFits g) :
    decodeWordDiffs (groupCode g) (groupBytes g) = groupDiffs g := by
  cases g with
  | g4 d0 d1 d2 d3 =>
    obtain ⟨h0, h1, h2, h3⟩ := h
    simp only [groupCode, groupBytes, groupDiffs, decodeWordDiffs, if_pos rfl]
    simp [List.getD, i8val_toU8, h0, h1, h2, h3]
  | g2 d0 d1 =>
    obtain ⟨h0, h1⟩ := h
    simp only [groupCode, groupBytes, groupDiffs, decodeWordDiffs, be16]
    norm_num
    constructor
    · have : toU16 d0 / 256 % 256 * 256 + toU16 d0 % 256 = toU16 d0 := by
        have := toU16_lt d0; omega
      rw [this]; exact i16val_toU16 h0
    · have : toU16 d1 / 256 % 256 * 256 + toU16 d1 % 256 = toU16 d1 := by
        have := toU16_lt d1; omega
      rw [this]; exact i16val_toU16 h1
  | g1 d0 =>
    simp only [groupCode, groupBytes, groupDiffs, decodeWordDiffs]
    norm_num
    rw [beWord_be32, Nat.mod_eq_of_lt (toU32_lt d0)]
    exact i32val_toU32 h

theorem sum_map_length {ws : List (List Nat)} (h : ∀ w ∈ ws, w.length = 4) :
    (ws.map List.length).sum = 4 * ws.length := by
  induction ws with
  | nil => rfl
  | cons w ws ih =>
    simp only [List.map_cons, List.sum_cons, List.length_cons]
    rw [h w (by simp), ih fun x hx => h x (by simp [hx])]
    ring

theorem padSlots_length {s : List (Nat × List Nat)} (hlen : s.length ≤ 15) :
    (padSlots s).length = 15 := by
  unfold padSlots
  simp
  omega

theorem padSlots_words {s : List (Nat × List Nat)} (hgood : GoodSlots s) :
    ∀ w ∈ (padSlots s).map Prod.snd, w.length = 4 := by
  intro w hw
  obtain ⟨p, hp, rfl⟩ := List.mem_map.mp hw
  rcases List.mem_append.mp hp with hp | hp
  · exact (hgood p hp).2.2
  · simp [List.eq_of_mem_replicate hp]

theorem padSlots_codes {s : List (Nat × List Nat)} (hgood : GoodSlots s) :
    ∀ c ∈ (padSlots s).map Prod.fst, c < 4 := by
  intro c hc
  obtain ⟨p, hp, rfl⟩ := List.mem_map.mp hc
  rcases List.mem_append.mp hp with hp | hp
  · exact (hgood p hp).2.1
  · rw [List.eq_of_mem_replicate hp]
    exact Nat.zero_lt_succ 3

theorem mkFrame_eq (s : List (Nat × List Nat)) :
    mkFrame s = be32 (pack4 (0 :: (padSlots s).map Prod.fst)) ++
      ((padSlots s).map Prod.snd).flatten := rfl

theorem mkFrame_length {s : List (Nat × List Nat)} (hgood : GoodSlots s)
    (hlen : s.length ≤ 15) : (mkFrame s).length = 64 := by
  rw [mkFrame_eq, List.length_append, be32_length, List.length_flatten]
  rw [List.map_map]
  have : ((padSlots s).map (List.length ∘ Prod.snd)).sum =
      (((padSlots s).map Prod.snd).map List.length).sum := by
    rw [List.map_map]
  rw [show List.map (List.length ∘ Prod.snd) (padSlots s) =
      ((padSlots s).map Prod.snd).map List.length from by rw [List.map_map]]
  rw [sum_map_length (padSlots_words hgood)]
  simp [padSlots_length hlen]

theorem framePairs_mkFrame {s : List (Nat × List Nat)} (hgood : GoodSlots s)
    (hlen : s.length ≤ 15) : framePairs (mkFrame s) = padSlots s := by
  unfold framePairs
  rw [mkFrame_eq]
  rw [List.take_left' (be32_length _), List.drop_left' (be32_length _)]
  rw [beWord_be32]
  have hdigits : ∀ c ∈ 0 :: (padSlots s).map Prod.fst, c < 4 := by
    intro c hc
    rcases List.mem_cons.mp hc with rfl | hc
    · exact Nat.zero_lt_succ 3
    · exact padSlots_codes hgood c hc
  have hdlen : (0 :: (padSlots s).map Prod.fst).length = 16 := by
    simp [padSlots_length hlen]
  have hbound : pack4 (0 :: (padSlots s).map Prod.fst) < 4294967296 := by
    have := pack4_lt hdigits
    rw [hdlen] at this
    exact lt_of_lt_of_le this (by norm_num)
  rw [Nat.mod_eq_of_lt hbound, ctrlCodes_pack4 hdlen hdigits]
  rw [List.drop_one, List.tail_cons]
  rw [chunks_join (by norm_num) _ (padSlots_words hgood)]
  exact zip_fst_snd _

theorem wordLoop_pad {s : List (Nat × List Nat)} (h : ∀ p ∈ s, p.1 ≠ 0) (k : Nat) :
    wordLoop (s ++ List.replicate k (0, [0, 0, 0, 0])) =
      (s.map fun p => decodeWordDiffs p.1 p.2).flatten := by
  induction s with
  | nil =>
    cases k with
    | zero => rfl
    | succ k => simp [wordLoop]
  | cons p s ih =>
    obtain ⟨c, w⟩ := p
    have hc : c ≠ 0 := h (c, w) (by simp)
    simp only [List.cons_append, wordLoop, if_neg hc, List.map_cons, List.flatten_cons]
    exact congrArg (fun t => decodeWordDiffs c w ++ t) (ih fun q hq => h q (by simp [hq]))

theorem buildFramesAux_congr :
    ∀ (f f' : Nat) (l : List (Nat × List Nat)), l.length ≤ f → l.length ≤ f' →
      buildFramesAux f l = buildFramesAux f' l := by
  intro f
  induction f with
  | zero =>
    intro f' l hf hf'
    have : l = [] := List.eq_nil_of_length_eq_zero (by omega)
    subst this
    cases f' <;> rfl
  | succ f ih =>
    intro f' l hf hf'
    match l, f' with
    | [], 0 => rfl
    | [], f' + 1 => rfl
    | a :: l, f' + 1 =>
      simp only [buildFramesAux]
      congr 1
      apply ih
      · simp only [List.length_drop, List.length_cons] at hf ⊢
        omega
      · simp only [List.length_drop, List.length_cons] at hf' ⊢
        omega

theorem buildFrames_cons {slots : List (Nat × List Nat)} (h : slots ≠ []) :
    buildFrames slots = mkFrame (slots.take 15) ++ buildFrames (slots.drop 15) := by
  obtain ⟨a, l, rfl⟩ : ∃ a l, slots = a :: l := by
    cases slots with
    | nil => exact absurd rfl h
    | cons a l => exact ⟨a, l, rfl⟩
  unfold buildFrames
  rw [show (a :: l).length = l.length + 1 from rfl]
  simp only [buildFramesAux]
  congr 1
  apply buildFramesAux_congr
  · simp only [List.length_drop, List.length_cons]
    omega
  · exact le_rfl

theorem chunks_cons_of_ne {n : Nat} (hn : 0 < n) {l : List α} (hl : l ≠ []) :
    chunks n l = l.take n :: chunks n (l.drop n) := by
  obtain ⟨a, t, rfl⟩ : ∃ a t, l = a :: t := by
    cases l with
    | nil => exact absurd rfl hl
    | cons a t => exact ⟨a, t, rfl⟩
  unfold chunks
  rw [show (a :: t).length = t.length + 1 from rfl]
  simp only [chunksAux]
  congr 1
  apply chunksAux_congr hn
  · simp only [List.length_drop, List.length_cons]
    omega
  · exact le_rfl

theorem goodSlots_take (n : Nat) {s : List (Nat × List Nat)} (h : GoodSlots s) :
    GoodSlots (s.take n) := fun p hp => h p (List.mem_of_mem_take hp)

theorem goodSlots_drop (n : Nat) {s : List (Nat × List Nat)} (h : GoodSlots s) :
    GoodSlots (s.drop n) := fun p hp => h p (List.mem_of_mem_drop hp)

theorem chunks_buildFrames :
    ∀ (N : Nat) (slots : List (Nat × List Nat)), slots.length ≤ N → GoodSlots slots →
      chunks 64 (buildFrames slots) = (chunks 15 slots).map mkFrame := by
  intro N
  induction N with
  | zero =>
    intro slots hlen _
    have : slots = [] := List.eq_nil_of_length_eq_zero (by omega)
    subst this
    rfl
  | succ N ih =>
    intro slots hlen hgood
    by_cases hne : slots = []
    · subst hne; rfl
    · rw [buildFrames_cons hne,
        chunks_append (by norm_num)
          _ (mkFrame_length (goodSlots_take 15 hgood) (by simp)),
        chunks_cons_of_ne (by norm_num) hne, List.map_cons]
      congr 1
      apply ih
      · simp only [List.length_drop]
        have : 0 < slots.length := List.length_pos.mpr hne
        omega
      · exact goodSlots_drop 15 hgood

theorem decode_buildFrames :
    ∀ (N : Nat) (slots : List (Nat × List Nat)), slots.length ≤ N → GoodSlots slots →
      ((chunks 64 (buildFrames slots)).map frameDiffsRest).flatten =
        (slots.map fun p => decodeWordDiffs p.1 p.2).flatten := by
  intro N
  induction N with
  | zero =>
    intro slots hlen _
    have : slots = [] := List.eq_nil_of_length_eq_zero (by omega)
    subst this
    rfl
  | succ N ih =>
    intro slots hlen hgood
    by_cases hne : slots = []
    · subst hne; rfl
    · rw [buildFrames_cons hne,
        chunks_append (by norm_num)
          _ (mkFrame_length (goodSlots_take 15 hgood) (by simp)),
        List.map_cons, List.flatten_cons]
      rw [show frameDiffsRest (mkFrame (slots.take 15)) =
          wordLoop (framePairs (mkFrame (slots.take 15))) from rfl]
      rw [framePairs_mkFrame (goodSlots_take 15 hgood) (by simp)]
      unfold padSlots
      rw [wordLoop_pad (fun p hp => ((goodSlots_take 15 hgood) p hp).1)]
      rw [ih (slots.drop 15)
        (by simp only [List.length_drop]
            have : 0 < slots.length := List.length_pos.mpr hne
            omega)
        (goodSlots_drop 15 hgood)]
      rw [← List.flatten_append, ← List.map_append, List.take_append_drop]

theorem packDiffs_flatten (ds : List Int) :
    ((packDiffs ds).map groupDiffs).flatten = ds := by
  induction ds using packDiffs.induct with
  | case1 => rfl
  | case2 d0 => rfl
  | case3 d0 d1 h => simp [packDiffs, if_pos h, groupDiffs]
  | case4 d0 d1 h ih =>
    simp only [packDiffs, if_neg h] at ih ⊢
    simp [groupDiffs, ih]
  | case5 d0 d1 d2 h ih =>
    simp only [packDiffs, if_pos h] at ih ⊢
    simp [groupDiffs, ih]
  | case6 d0 d1 d2 h ih =>
    simp only [packDiffs, if_neg h] at ih ⊢
    simp only [List.map_cons, List.flatten_cons, ih, groupDiffs]
    rfl
  | case7 d0 d1 d2 d3 rest h ih =>
    simp only [packDiffs, if_pos h] at ih ⊢
    simp [groupDiffs, ih]
  | case8 d0 d1 d2 d3 rest h h2 ih =>
    simp only [packDiffs, if_neg h, if_pos h2] at ih ⊢
    simp only [List.map_cons, List.flatten_cons, ih, groupDiffs]
    rfl
  | case9 d0 d1 d2 d3 rest h h2 ih =>
    simp only [packDiffs, if_neg h, if_neg h2] at ih ⊢
    simp only [List.map_cons, List.flatten_cons, ih, groupDiffs]
    rfl

theorem packDiffs_fits_aux :
    ∀ (N : Nat) (ds : List Int), ds.length ≤ N → (∀ d ∈ ds, fits32 d) →
      ∀ g ∈ packDiffs ds, GroupFits g := by
  intro N
  induction N with
  | zero =>
    intro ds hlen _ g hg
    have : ds = [] := List.eq_nil_of_length_eq_zero (by omega)
    subst this
    simp [packDiffs] at hg
  | succ N ih =>
    intro ds hlen hds g hg
    match ds, hlen, hds, hg with
    | [], _, _, hg => simp [packDiffs] at hg
    | [d0], _, hds, hg =>
      rw [show packDiffs [d0] = [.g1 d0] from rfl] at hg
      rcases List.mem_singleton.mp hg with rfl
      exact hds d0 (by simp)
    | [d0, d1], hlen, hds, hg =>
      rw [show packDiffs [d0, d1] =
          if fits16 d0 ∧ fits16 d1 then [.g2 d0 d1]
          else .g1 d0 :: packDiffs [d1] from rfl] at hg
      split at hg
      · rcases List.mem_singleton.mp hg with rfl
        assumption
      · rcases List.mem_cons.mp hg with rfl | hg
        · exact hds d0 (by simp)
        · exact ih [d1] (by simp at hlen ⊢; omega)
            (fun d hd => hds d (by rcases List.mem_singleton.mp hd with rfl; simp)) g hg
    | [d0, d1, d2], hlen, hds, hg =>
      rw [show packDiffs [d0, d1, d2] =
          if fits16 d0 ∧ fits16 d1 then .g2 d0 d1 :: packDiffs [d2]
          else .g1 d0 :: packDiffs [d1, d2] from rfl] at hg
      split at hg
      · rcases List.mem_cons.mp hg with rfl | hg
        · assumption
        · exact ih [d2] (by simp at hlen ⊢; omega)
            (fun d hd => hds d (by rcases List.mem_singleton.mp hd with rfl; simp)) g hg
      · rcases List.mem_cons.mp hg with rfl | hg
        · exact hds d0 (by simp)
        · refine ih [d1, d2] (by simp at hlen ⊢; omega) (fun d hd => hds d ?_) g hg
          rcases List.mem_cons.mp hd with rfl | hd
          · simp
          · rcases List.mem_singleton.mp hd with rfl; simp
    | d0 :: d1 :: d2 :: d3 :: rest, hlen, hds, hg =>
      rw [show packDiffs (d0 :: d1 :: d2 :: d3 :: rest) =
          if fits8 d0 ∧ fits8 d1 ∧ fits8 d2 ∧ fits8 d3 then
            .g4 d0 d1 d2 d3 :: packDiffs rest
          else if fits16 d0 ∧ fits16 d1 then .g2 d0 d1 :: packDiffs (d2 :: d3 :: rest)
          else .g1 d0 :: packDiffs (d1 :: d2 :: d3 :: rest) from rfl] at hg
      split at hg
      · rcases List.mem_cons.mp hg with rfl | hg
        · assumption
        · exact ih rest (by simp at hlen ⊢; omega)
            (fun d hd => hds d (by simp [hd])) g hg
      · split at hg
        · rcases List.mem_cons.mp hg with rfl | hg
          · assumption
          · refine ih (d2 :: d3 :: rest) (by simp at hlen ⊢; omega)
              (fun d hd => hds d ?_) g hg
            simp only [List.mem_cons] at hd ⊢
            tauto
        · rcases List.mem_cons.mp hg with rfl | hg
          · exact hds d0 (by simp)
          · refine ih (d1 :: d2 :: d3 :: rest) (by simp at hlen ⊢; omega)
              (fun d hd => hds d ?_) g hg
            simp only [List.mem_cons] at hd ⊢
            tauto

theorem packDiffs_fits {ds : List Int} (hds : ∀ d ∈ ds, fits32 d) :
    ∀ g ∈ packDiffs ds, GroupFits g :=
  packDiffs_fits_aux ds.length ds le_rfl hds

theorem wdiffs_fits (s : List Int) : ∀ d ∈ wdiffs s, fits32 d := by
  induction s using wdiffs.induct with
  | case1 => intro d hd; simp [wdiffs] at hd
  | case2 x => intro d hd; simp [wdiffs] at hd
  | case3 x y r ih =>
    intro d hd
    rw [show wdiffs (x :: y :: r) = wrap32 (y - x) :: wdiffs (y :: r) from rfl] at hd
    rcases List.mem_cons.mp hd with rfl | hd
    · exact wrap32_fits32 _
    · exact ih d hd

theorem wdiffs_length (x : Int) (r : List Int) :
    (wdiffs (x :: r)).length = r.length := by
  induction r generalizing x with
  | nil => rfl
  | cons y r ih => simp [wdiffs, ih]

theorem buildFrames_mod :
    ∀ (N : Nat) (slots : List (Nat × List Nat)), slots.length ≤ N → GoodSlots slots →
      (buildFrames slots).length % 64 = 0 := by
  intro N
  induction N with
  | zero =>
    intro slots hlen _
    have : slots = [] := List.eq_nil_of_length_eq_zero (by omega)
    subst this
    rfl
  | succ N ih =>
    intro slots hlen hgood
    by_cases hne : slots = []
    · subst hne; rfl
    · rw [buildFrames_cons hne, List.length_append,
        mkFrame_length (goodSlots_take 15 hgood) (by simp)]
      have := ih (slots.drop 15)
        (by simp only [List.length_drop]
            have : 0 < slots.length := List.length_pos.mpr hne
            omega)
        (goodSlots_drop 15 hgood)
      omega

theorem buildFrames_pos {slots : List (Nat × List Nat)} (hne : slots ≠ [])
    (hgood : GoodSlots slots) : 0 < (buildFrames slots).length := by
  rw [buildFrames_cons hne, List.length_append,
    mkFrame_length (goodSlots_take 15 hgood) (by simp)]
  omega

theorem word_shape {A w0 w1 Z : List Nat} (hA : A.length = 4)
    (h0 : w0.length = 4) (h1 : w1.length = 4) :
    ((A ++ (w0 ++ (w1 ++ Z))).drop 4).take 4 = w0 ∧
      ((A ++ (w0 ++ (w1 ++ Z))).drop 8).take 4 = w1 := by
  constructor
  · rw [List.drop_left' hA, List.take_left' h0]
  · rw [show (8 : Nat) = 4 + 4 from rfl, ← List.drop_drop, List.drop_left' hA,
      List.drop_left' h0, List.take_left' h1]

/-- The first two data words of the first frame of a built body are the
first two slot words. -/
theorem buildFrames_consts {s0 s1 : Nat × List Nat} {gs : List (Nat × List Nat)}
    (h0 : s0.2.length = 4) (h1 : s1.2.length = 4) :
    ((buildFrames (s0 :: s1 :: gs)).drop 4).take 4 = s0.2 ∧
      ((buildFrames (s0 :: s1 :: gs)).drop 8).take 4 = s1.2 := by
  have hpad : padSlots (s0 :: s1 :: gs.take 13) =
      s0 :: s1 :: (gs.take 13 ++
        List.replicate (15 - (s0 :: s1 :: gs.take 13).length) (0, [0, 0, 0, 0])) := by
    unfold padSlots
    simp [List.cons_append]
  have heq : buildFrames (s0 :: s1 :: gs) =
      be32 (pack4 (0 :: s0.1 :: s1.1 ::
          ((gs.take 13 ++ List.replicate (15 - (s0 :: s1 :: gs.take 13).length)
            (0, [0, 0, 0, 0])).map Prod.fst))) ++
        (s0.2 ++ (s1.2 ++
          (((gs.take 13 ++ List.replicate (15 - (s0 :: s1 :: gs.take 13).length)
              (0, [0, 0, 0, 0])).map Prod.snd).flatten ++
            buildFrames ((s0 :: s1 :: gs).drop 15)))) := by
    rw [buildFrames_cons (by simp),
      show (s0 :: s1 :: gs).take 15 = s0 :: s1 :: gs.take 13 from rfl,
      mkFrame_eq, hpad]
    simp only [List.map_cons, List.flatten_cons, List.append_assoc]
  rw [heq]
  exact word_shape (be32_length _) h0 h1

theorem bodyDiffs_cons {f0 : List Nat} {fs : List (List Nat)} {body : List Nat}
    (h : chunks 64 body = f0 :: fs) :
    bodyDiffs body = frameDiffsFirst f0 ++ (fs.map frameDiffsRest).flatten := by
  unfold bodyDiffs
  rw [h]

/-- Decoding a built body recovers exactly the word streams of the group
slots: the first two constant slots are skipped, the rest are read per
their control codes, frame by frame. -/
theorem bodyDiffs_encode {s0 s1 : Nat × List Nat} {gs : List (Nat × List Nat)}
    (hgood : GoodSlots (s0 :: s1 :: gs)) :
    bodyDiffs (buildFrames (s0 :: s1 :: gs)) =
      (gs.map fun p => decodeWordDiffs p.1 p.2).flatten := by
  have hg1 : GoodSlots (s0 :: s1 :: gs.take 13) := by
    intro p hp
    rcases List.mem_cons.mp hp with rfl | hp
    · exact hgood p (by simp)
    rcases List.mem_cons.mp hp with rfl | hp
    · exact hgood p (by simp)
    · exact hgood p (by simp [List.mem_of_mem_take hp])
  have hgdrop : GoodSlots (gs.drop 13) := fun p hp =>
    hgood p (by simp [List.mem_of_mem_drop hp])
  have hlen1 : (s0 :: s1 :: gs.take 13).length ≤ 15 := by
    simp only [List.length_cons]
    have := List.length_take_le 13 gs
    omega
  have hchunks : chunks 64 (buildFrames (s0 :: s1 :: gs)) =
      mkFrame (s0 :: s1 :: gs.take 13) :: (chunks 15 (gs.drop 13)).map mkFrame := by
    rw [chunks_buildFrames (s0 :: s1 :: gs).length _ le_rfl hgood,
      chunks_cons_of_ne (by norm_num) (show (s0 :: s1 :: gs) ≠ [] by simp),
      List.map_cons,
      show (s0 :: s1 :: gs).take 15 = s0 :: s1 :: gs.take 13 from rfl,
      show (s0 :: s1 :: gs).drop 15 = gs.drop 13 from rfl]
  rw [bodyDiffs_cons hchunks]
  have hfirst : frameDiffsFirst (mkFrame (s0 :: s1 :: gs.take 13)) =
      ((gs.take 13).map fun p => decodeWordDiffs p.1 p.2).flatten := by
    unfold frameDiffsFirst
    rw [framePairs_mkFrame hg1 hlen1]
    rw [show padSlots (s0 :: s1 :: gs.take 13) =
        s0 :: s1 :: (gs.take 13 ++
          List.replicate (15 - (s0 :: s1 :: gs.take 13).length) (0, [0, 0, 0, 0]))
      from by unfold padSlots; simp [List.cons_append]]
    rw [show (s0 :: s1 :: (gs.take 13 ++
        List.replicate (15 - (s0 :: s1 :: gs.take 13).length)
          (0, [0, 0, 0, 0]))).drop 2 =
      gs.take 13 ++ List.replicate (15 - (s0 :: s1 :: gs.take 13).length)
          (0, [0, 0, 0, 0]) from rfl]
    exact wordLoop_pad (fun p hp => (hgood p (by simp [List.mem_of_mem_take hp])).1) _
  have hrest : ((((chunks 15 (gs.drop 13)).map mkFrame).map frameDiffsRest)).flatten =
      ((gs.drop 13).map fun p => decodeWordDiffs p.1 p.2).flatten := by
    rw [← chunks_buildFrames (gs.drop 13).length _ le_rfl hgdrop]
    exact decode_buildFrames (gs.drop 13).length _ le_rfl hgdrop
  rw [hfirst, hrest, ← List.flatten_append, ← List.map_append, List.take_append_drop]

theorem cumsum_wdiffs {x0 : Int} {r : List Int}
    (h : ∀ x ∈ x0 :: r, fits32 x) :
    cumsumFrom x0 (wdiffs (x0 :: r)) = r := by
  induction r generalizing x0 with
  | nil => rfl
  | cons y r ih =>
    show cumsumFrom x0 (wrap32 (y - x0) :: wdiffs (y :: r)) = y :: r
    show wrap32 (x0 + wrap32 (y - x0)) :: _ = y :: r
    have hy : wrap32 (x0 + wrap32 (y - x0)) = y :=
      wrap32_cancel (h x0 (by simp)) (h y (by simp))
    rw [hy]
    exact congrArg (y :: ·) (ih fun x hx => h x (by
      rcases List.mem_cons.mp hx with rfl | hx
      · simp
      · simp [hx]))

theorem recomb16 {n : Nat} (h : n < 65536) :
    n / 256 % 256 * 256 + n % 256 = n := by omega

theorem recomb_i16 {z : Int} (h : fits16 z) :
    i16val (toU16 z / 256 % 256 * 256 + toU16 z % 256) = z := by
  rw [recomb16 (toU16_lt z)]
  exact i16val_toU16 h

theorem recomb32 {m : Nat} (h : m < 4294967296) :
    m / 16777216 % 256 * 16777216 + m / 65536 % 256 * 65536 +
      m / 256 % 256 * 256 + m % 256 = m := by omega

theorem recomb_i32 {z : Int} (h : fits32 z) :
    i32val (toU32 z / 16777216 % 256 * 16777216 + toU32 z / 65536 % 256 * 65536 +
      toU32 z / 256 % 256 * 256 + toU32 z % 256) = z := by
  rw [recomb32 (toU32_lt z)]
  exact i32val_toU32 h

theorem recomb64 {t : Nat} (h : t < 18446744073709551616) :
    (t / 4294967296 % 4294967296 / 16777216 % 256 * 16777216 +
      t / 4294967296 % 4294967296 / 65536 % 256 * 65536 +
      t / 4294967296 % 4294967296 / 256 % 256 * 256 +
      t / 4294967296 % 4294967296 % 256) * 4294967296 +
      (t / 16777216 % 256 * 16777216 + t / 65536 % 256 * 65536 +
        t / 256 % 256 * 256 + t % 256) = t := by omega

/-- Parsing the serialized header in front of any continuation recovers
the header record, field by field. -/
theorem decode_header_encode {h : NpHeader} (rest : List Nat)
    (hmagic : h.np_version = (78, 80)) (hps : h.packet_size < 65536)
    (hseq : fits32 h.sequence_number) (hmeta : fits32 h.meta_sequence_number)
    (htime : h.start_time < 18446744073709551616)
    (hlat : fits32 h.latitude) (hlon : fits32 h.longitude)
    (halt : fits16 h.altitude) (hpe : fits16 h.packet_extension_block) :
    decode_header (encode_header h ++ rest) = .ok h := by
  obtain ⟨⟨v1, v2⟩, ps, sq, ms, st, la, lo, al, ⟨d1, d2, d3, d4⟩, bn, pe⟩ := h
  obtain ⟨rfl, rfl⟩ : v1 = 78 ∧ v2 = 80 := by
    simpa using hmagic
  simp only at hps hseq hmeta htime hlat hlon halt hpe
  unfold encode_header decode_header
  simp only [be16, be32, be64, List.cons_append, List.nil_append]
  rw [if_neg (by simp)]
  rw [if_pos (by constructor <;> rfl)]
  simp only [rd16, rd32, rd64, List.getD_cons_succ, List.getD_cons_zero]
  rw [Except.ok.injEq, NpHeader.mk.injEq]
  refine ⟨rfl, recomb16 hps, recomb_i32 hseq, recomb_i32 hmeta, recomb64 htime,
    recomb_i32 hlat, recomb_i32 hlon, recomb_i16 halt, rfl, rfl, recomb_i16 hpe⟩

/-- Parsing the serialized payload header in front of any continuation
recovers the record. -/
theorem decode_payload_header_encode {ph : NpPayloadHeader} (rest : List Nat)
    (hps : ph.payload_size < 65536) (hpe : fits16 ph.payload_extension_block) :
    decode_payload_header (encode_payload_header ph ++ rest) = .ok ph := by
  obtain ⟨ps, pn, mt, pe, ⟨n1, n2, n3, n4⟩, ⟨r1, r2, r3, r4⟩⟩ := ph
  simp only at hps hpe
  unfold encode_payload_header decode_payload_header
  simp only [be16, List.cons_append, List.nil_append]
  rw [if_neg (by simp)]
  simp only [rd16, List.getD_cons_succ, List.getD_cons_zero]
  rw [Except.ok.injEq, NpPayloadHeader.mk.injEq]
  exact ⟨recomb16 hps, rfl, rfl, recomb_i16 hpe, rfl, rfl⟩

/-- Steim1 encode/decode round trip for sample sequences within the
signed 32-bit range. -/
theorem steim1_decode_encode {s : List Int} (h : ∀ x ∈ s, fits32 x) :
    Steim1Decode (Steim1Encode s) s.length = .ok s := by
  match s with
  | [] => rfl
  | x0 :: r =>
    have hgood : GoodSlots ((3, be32 (toU32 x0)) ::
        (3, be32 (toU32 ((x0 :: r).getLastD 0))) ::
        (packDiffs (wdiffs (x0 :: r))).map groupSlot) := by
      intro p hp
      rcases List.mem_cons.mp hp with rfl | hp
      · exact ⟨by norm_num, by norm_num, be32_length _⟩
      rcases List.mem_cons.mp hp with rfl | hp
      · exact ⟨by norm_num, by norm_num, be32_length _⟩
      · exact goodSlots_groups _ p hp
    have henc : Steim1Encode (x0 :: r) = buildFrames ((3, be32 (toU32 x0)) ::
        (3, be32 (toU32 ((x0 :: r).getLastD 0))) ::
        (packDiffs (wdiffs (x0 :: r))).map groupSlot) := rfl
    have hdiffs : bodyDiffs (Steim1Encode (x0 :: r)) = wdiffs (x0 :: r) := by
      rw [henc, bodyDiffs_encode hgood, List.map_map]
      have hmap : List.map ((fun p => decodeWordDiffs p.1 p.2) ∘ groupSlot)
          (packDiffs (wdiffs (x0 :: r))) =
            List.map groupDiffs (packDiffs (wdiffs (x0 :: r))) :=
        List.map_congr_left fun g hg =>
          decode_groupSlot (packDiffs_fits (wdiffs_fits (x0 :: r)) g hg)
      rw [hmap]
      exact packDiffs_flatten _
    have hX0 : bodyX0 (Steim1Encode (x0 :: r)) = x0 := by
      unfold bodyX0
      rw [henc, (buildFrames_consts (be32_length _) (be32_length _)).1]
      rw [beWord_be32, Nat.mod_eq_of_lt (toU32_lt _)]
      exact i32val_toU32 (h x0 (by simp))
    have hXn : bodyXn (Steim1Encode (x0 :: r)) = (x0 :: r).getLastD 0 := by
      unfold bodyXn
      rw [henc, (buildFrames_consts (be32_length _) (be32_length _)).2]
      rw [beWord_be32, Nat.mod_eq_of_lt (toU32_lt _)]
      exact i32val_toU32 (h _ (getLastD_cons_mem x0 r 0))
    have hsam : steim1Samples (Steim1Encode (x0 :: r)) (x0 :: r).length = x0 :: r := by
      unfold steim1Samples
      rw [hX0, hdiffs]
      rw [show (x0 :: r).length - 1 = r.length from by simp]
      rw [show (wdiffs (x0 :: r)).take r.length = wdiffs (x0 :: r) from by
        rw [← wdiffs_length x0 r]; exact List.take_length _]
      rw [cumsum_wdiffs h]
    unfold Steim1Decode
    rw [if_neg (not_not_intro (by
      rw [henc]; exact buildFrames_mod _ _ le_rfl hgood))]
    rw [if_neg (show ¬(x0 :: r).length = 0 by simp)]
    rw [if_neg (show ¬(Steim1Encode (x0 :: r)).length = 0 by
      rw [henc]
      have := buildFrames_pos (show _ ≠ [] by simp) hgood
      omega)]
    rw [if_neg (show ¬((bodyDiffs (Steim1Encode (x0 :: r))).length + 1 <
        (x0 :: r).length) by
      rw [hdiffs, wdiffs_length]
      simp)]
    rw [if_neg (not_not_intro (by rw [hsam, hXn])), hsam]

/-- A successful Steim1 decode returns exactly the declared number of
samples. -/
theorem steim1_ok_length {body : List Nat} {n : Nat} {s : List Int}
    (h : Steim1Decode body n = .ok s) : s.length = n := by
  unfold Steim1Decode at h
  split at h
  · simp at h
  · split at h
    · rename_i hn
      injection h with h'
      rw [← h', hn]
      rfl
    · split at h
      · simp at h
      · split at h
        · simp at h
        · split at h
          · simp at h
          · rename_i hmod hn hbody hdiffs hlast
            injection h with h'
            rw [← h']
            exact steim1Samples_length (by omega) (by omega)

/-- Round trip of a valid packet through serialization and parsing. -/
theorem packet_roundtrip {p : NpPacket} (hv : ValidPacket p) :
    decode_packet (encode_packet p) = .ok p := by
  obtain ⟨h, ⟨ph, body⟩⟩ := p
  obtain ⟨hmagic, hsize, hps, hseq, hmeta, htime, hlat, hlon, halt, hd1, hd2, hd3,
    hd4, hbn, hpe, hpsize, hpn, hmt, hppe, hn1, hn2, hn3, hn4, hr1, hr2, hr3, hr4,
    hok⟩ := hv
  simp only at hmagic hsize hps hseq hmeta htime hlat hlon halt hpe hpsize hmt
  simp only at hppe hok
  have hh : decode_header (encode_header h ++ (encode_payload_header ph ++ body)) =
      .ok h :=
    decode_header_encode _ hmagic hps hseq hmeta htime hlat hlon halt hpe
  have hlen : (encode_header h ++ (encode_payload_header ph ++ body)).length =
      51 + body.length := by
    simp [encode_header_length, encode_payload_header_length]
    omega
  have hdrop37 : (encode_header h ++ (encode_payload_header ph ++ body)).drop 37 =
      encode_payload_header ph ++ body :=
    List.drop_left' (encode_header_length h)
  have hph : decode_payload_header
      ((encode_header h ++ (encode_payload_header ph ++ body)).drop 37) = .ok ph := by
    rw [hdrop37]
    exact decode_payload_header_encode _ (by omega) hppe
  have hdrop51 : (encode_header h ++ (encode_payload_header ph ++ body)).drop 51 =
      body := by
    rw [show (51 : Nat) = 37 + 14 from rfl, ← List.drop_drop, hdrop37,
      List.drop_left' (encode_payload_header_length ph)]
  obtain ⟨samples, hsam⟩ : ∃ s, Steim1Decode body (nsCount ph) = .ok s := by
    cases hE : Steim1Decode body (nsCount ph) with
    | error e => rw [hE] at hok; exact Bool.noConfusion hok
    | ok s => exact ⟨s, rfl⟩
  show decode_packet (encode_header h ++ encode_payload_header ph ++ body) = _
  rw [List.append_assoc]
  generalize hBdef : encode_header h ++ (encode_payload_header ph ++ body) = B
  rw [hBdef] at hh hlen hdrop37 hph hdrop51
  unfold decode_packet
  rw [hh]
  simp only []
  rw [if_neg (not_not_intro (hlen.trans hsize.symm))]
  rw [hph]
  simp only []
  rw [if_neg (not_not_intro hmt)]
  rw [hdrop51, hsam]
  simp only []
  rw [if_neg (not_not_intro (by omega))]
  rw [if_neg (not_not_intro (steim1_ok_length hsam))]

/-- A successfully decoded packet satisfies the cross-field size
invariant: packet_size = header size (37) + payload_size. -/
theorem decode_packet_ok_inv {bytes : List Nat} {p : NpPacket}
    (h : decode_packet bytes = .ok p) :
    p.header.packet_size = 37 + p.payload.header.payload_size := by
  unfold decode_packet at h
  split at h
  · simp at h
  · rename_i hdr hh
    split at h
    · simp at h
    · split at h
      · simp at h
      · rename_i ph hph
        split at h
        · simp at h
        · split at h
          · simp at h
          · rename_i hmt samples hsam
            split at h
            · simp at h
            · split at h
              · simp at h
              · rename_i hsize hcount
                injection h with h'
                rw [← h']
                simp only []
                omega

theorem zip_drop {α β : Type} :
    ∀ (k : Nat) (l : List α) (l' : List β),
      (l.zip l').drop k = (l.drop k).zip (l'.drop k) := by
  intro k
  induction k with
  | zero => intro l l'; rfl
  | succ k ih =>
    intro l l'
    cases l with
    | nil => simp
    | cons a l =>
      cases l' with
      | nil => simp
      | cons b l' =>
        rw [List.zip_cons_cons, List.drop_succ_cons, List.drop_succ_cons,
          List.drop_succ_cons, ih]

theorem drop3_eq_of_agree {cs cs' : List Nat} (hlen : cs.length = 16)
    (hlen' : cs'.length = 16)
    (hagree : ∀ j, j < 16 → j ≠ 1 → j ≠ 2 → cs.getD j 0 = cs'.getD j 0) :
    cs.drop 3 = cs'.drop 3 := by
  apply List.ext_getElem
  · simp [hlen, hlen']
  · intro i h1 h2
    rw [List.getElem_drop, List.getElem_drop]
    have hi : 3 + i < 16 := by simp [hlen] at h1; omega
    rw [← List.getD_eq_getElem cs 0 (by omega), ← List.getD_eq_getElem cs' 0 (by omega)]
    exact hagree (3 + i) (by omega) (by omega) (by omega)

/-- The first frame's differences depend on the control word only through
the codes at positions other than 1 and 2, and the integration constants
are read from the first two data words as plain 32-bit values. -/
theorem first_frame_ctrl_invariant {cs cs' W : List Nat} (R : List Nat) (n : Nat)
    (hlen : cs.length = 16) (hlen' : cs'.length = 16)
    (hlt : ∀ c ∈ cs, c < 4) (hlt' : ∀ c ∈ cs', c < 4)
    (hagree : ∀ j, j < 16 → j ≠ 1 → j ≠ 2 → cs.getD j 0 = cs'.getD j 0)
    (hW : W.length = 60) :
    Steim1Decode (be32 (pack4 cs) ++ (W ++ R)) n =
      Steim1Decode (be32 (pack4 cs') ++ (W ++ R)) n ∧
    bodyX0 (be32 (pack4 cs) ++ (W ++ R)) = i32val (beWord (W.take 4)) ∧
    bodyXn (be32 (pack4 cs) ++ (W ++ R)) = i32val (beWord ((W.drop 4).take 4)) := by
  have hb32 : ∀ v : Nat, (be32 v).length = 4 := be32_length
  have hX0 : ∀ v : Nat, bodyX0 (be32 v ++ (W ++ R)) = i32val (beWord (W.take 4)) := by
    intro v
    unfold bodyX0
    rw [List.drop_left' (hb32 v), List.take_append_of_le_length (by omega)]
  have hXn : ∀ v : Nat,
      bodyXn (be32 v ++ (W ++ R)) = i32val (beWord ((W.drop 4).take 4)) := by
    intro v
    unfold bodyXn
    rw [show (8 : Nat) = 4 + 4 from rfl, ← List.drop_drop, List.drop_left' (hb32 v),
      List.drop_append_of_le_length (by omega),
      List.take_append_of_le_length (by simp [hW])]
  have hpack : ∀ {ds : List Nat}, ds.length = 16 → (∀ c ∈ ds, c < 4) →
      pack4 ds % 4294967296 = pack4 ds := by
    intro ds hl hc
    apply Nat.mod_eq_of_lt
    have := pack4_lt hc
    rw [hl] at this
    exact lt_of_lt_of_le this (by norm_num)
  have hfirst : ∀ {ds : List Nat}, ds.length = 16 → (∀ c ∈ ds, c < 4) →
      frameDiffsFirst (be32 (pack4 ds) ++ W) =
        wordLoop ((ds.drop 3).zip ((chunks 4 W).drop 2)) := by
    intro ds hl hc
    unfold frameDiffsFirst framePairs
    rw [List.take_left' (hb32 _), List.drop_left' (hb32 _), beWord_be32, hpack hl hc,
      ctrlCodes_pack4 hl hc, zip_drop, List.drop_drop]
  have hdiffs : bodyDiffs (be32 (pack4 cs) ++ (W ++ R)) =
      bodyDiffs (be32 (pack4 cs') ++ (W ++ R)) := by
    have hsplit : ∀ v : Nat, be32 v ++ (W ++ R) = (be32 v ++ W) ++ R := by
      intro v
      rw [List.append_assoc]
    have hchunk : ∀ v : Nat, chunks 64 ((be32 v ++ W) ++ R) =
        (be32 v ++ W) :: chunks 64 R := by
      intro v
      exact chunks_append (by norm_num) R (by simp [hb32 v, hW])
    rw [hsplit, hsplit, bodyDiffs_cons (hchunk _), bodyDiffs_cons (hchunk _)]
    rw [hfirst hlen hlt, hfirst hlen' hlt', drop3_eq_of_agree hlen hlen' hagree]
  have hlb : (be32 (pack4 cs) ++ (W ++ R)).length =
      (be32 (pack4 cs') ++ (W ++ R)).length := by
    simp [hb32]
  refine ⟨?_, hX0 _, hXn _⟩
  unfold Steim1Decode steim1Samples
  rw [hdiffs, hX0 (pack4 cs), hX0 (pack4 cs'), hXn (pack4 cs), hXn (pack4 cs'), hlb]

/-- When the difference count is a multiple of four and every difference
fits in 8 bits, the greedy packer emits only code-01 groups. -/
theorem packDiffs_all8 :
    ∀ (N : Nat) (ds : List Int), ds.length ≤ N → (∀ d ∈ ds, fits8 d) →
      ds.length % 4 = 0 → ∀ g ∈ packDiffs ds, groupCode g = 1 := by
  intro N
  induction N with
  | zero =>
    intro ds hlen _ _ g hg
    have : ds = [] := List.eq_nil_of_length_eq_zero (by omega)
    subst this
    simp [packDiffs] at hg
  | succ N ih =>
    intro ds hlen h8 h4 g hg
    match ds, hlen, h8, h4, hg with
    | [], _, _, _, hg => simp [packDiffs] at hg
    | [d0], _, _, h4, _ => simp at h4
    | [d0, d1], _, _, h4, _ => simp at h4
    | [d0, d1, d2], _, _, h4, _ => simp at h4
    | d0 :: d1 :: d2 :: d3 :: rest, hlen, h8, h4, hg =>
      rw [show packDiffs (d0 :: d1 :: d2 :: d3 :: rest) =
          if fits8 d0 ∧ fits8 d1 ∧ fits8 d2 ∧ fits8 d3 then
            .g4 d0 d1 d2 d3 :: packDiffs rest
          else if fits16 d0 ∧ fits16 d1 then .g2 d0 d1 :: packDiffs (d2 :: d3 :: rest)
          else .g1 d0 :: packDiffs (d1 :: d2 :: d3 :: rest) from rfl] at hg
      rw [if_pos ⟨h8 d0 (by simp), h8 d1 (by simp), h8 d2 (by simp),
        h8 d3 (by simp)⟩] at hg
      rcases List.mem_cons.mp hg with rfl | hg
      · rfl
      · exact ih rest (by simp at hlen ⊢; omega)
          (fun d hd => h8 d (by simp [hd]))
          (by simp at h4 ⊢; omega) g hg

/-- C1: for every valid NpPacket P, decoding the bytes produced by
encoding P yields a packet equal to P. -/
theorem c1_decode_encode_packet (p : NpPacket) (hv : ValidPacket p) :
    decode_packet (encode_packet p) = .ok p :=
  packet_roundtrip hv

theorem c1_decode_encode_packet_witness :
    ValidPacket demoPacket ∧
      decode_packet (encode_packet demoPacket) = .ok demoPacket :=
  have hv : ValidPacket demoPacket := by unfold ValidPacket; decide
  ⟨hv, c1_decode_encode_packet demoPacket hv⟩

/-- C2: for every SampleSequence S within signed 32-bit range, decoding
the Steim1 frames produced by encoding S returns exactly S, bit-exact. -/
theorem c2_steim1_roundtrip (s : List Int)
    (h : ∀ x ∈ s, -2147483648 ≤ x ∧ x < 2147483648) :
    Steim1Decode (Steim1Encode s) s.length = .ok s :=
  steim1_decode_encode h

theorem c2_steim1_roundtrip_witness :
    (∀ x ∈ [(1 : Int), 3, 2], -2147483648 ≤ x ∧ x < 2147483648) ∧
      Steim1Decode (Steim1Encode [(1 : Int), 3, 2]) ([(1 : Int), 3, 2]).length =
        .ok [(1 : Int), 3, 2] :=
  ⟨by decide, c2_steim1_roundtrip [(1 : Int), 3, 2] (by decide)⟩

/-- C3 (counterexample): a successfully decoded packet whose packet_size
is not 30 plus its payload_size, and whose serialized header is not 30
bytes: the NpHeader block is 37 bytes, not 30. -/
theorem c3_counterexample :
    decode_packet demoBytes = .ok demoPacket ∧
      demoPacket.header.packet_size ≠
        30 + demoPacket.payload.header.payload_size ∧
      (encode_header demoPacket.header).length ≠ 30 := by
  refine ⟨by decide, by decide, by decide⟩

/-- C3 (amended): for every successfully decoded NpPacket, the NpHeader
occupies a fixed 37-byte block and header.packet_size equals 37 plus
payload.header.payload_size. -/
theorem c3_size_invariant (bytes : List Nat) (p : NpPacket)
    (h : decode_packet bytes = .ok p) :
    p.header.packet_size = 37 + p.payload.header.payload_size ∧
      (encode_header p.header).length = 37 :=
  ⟨decode_packet_ok_inv h, encode_header_length p.header⟩

theorem c3_size_invariant_witness :
    decode_packet demoBytes = .ok demoPacket ∧
      demoPacket.header.packet_size = 37 + demoPacket.payload.header.payload_size ∧
      (encode_header demoPacket.header).length = 37 :=
  ⟨by decide, c3_size_invariant demoBytes demoPacket (by decide)⟩

/-- C4: on the first frame the decoder reads its first data word as X0
and its second as Xn, both as plain 32-bit values regardless of their
control nibbles (changing the codes at positions 1 and 2 cannot change
the decode result), and reconstruction is the cumulative sum from X0 over
the differences read per 2-bit control code. -/
theorem c4_first_frame_special (cs cs' W R : List Nat) (n : Nat)
    (hlen : cs.length = 16) (hlen' : cs'.length = 16)
    (hlt : ∀ c ∈ cs, c < 4) (hlt' : ∀ c ∈ cs', c < 4)
    (hagree : ∀ j, j < 16 → j ≠ 1 → j ≠ 2 → cs.getD j 0 = cs'.getD j 0)
    (hW : W.length = 60) :
    (Steim1Decode (be32 (pack4 cs) ++ (W ++ R)) n =
      Steim1Decode (be32 (pack4 cs') ++ (W ++ R)) n) ∧
    bodyX0 (be32 (pack4 cs) ++ (W ++ R)) = i32val (beWord (W.take 4)) ∧
    bodyXn (be32 (pack4 cs) ++ (W ++ R)) = i32val (beWord ((W.drop 4).take 4)) ∧
    ∀ m : Nat, steim1Samples (be32 (pack4 cs) ++ (W ++ R)) m =
      bodyX0 (be32 (pack4 cs) ++ (W ++ R)) ::
        cumsumFrom (bodyX0 (be32 (pack4 cs) ++ (W ++ R)))
          ((bodyDiffs (be32 (pack4 cs) ++ (W ++ R))).take (m - 1)) := by
  obtain ⟨h1, h2, h3⟩ := first_frame_ctrl_invariant R n hlen hlen' hlt hlt' hagree hW
  exact ⟨h1, h2, h3, fun m => rfl⟩

theorem c4_first_frame_special_witness :
    Steim1Decode (be32 (pack4 demoCodes) ++ (demoBody.drop 4 ++ [])) 3 =
      Steim1Decode (be32 (pack4 demoCodesAlt) ++ (demoBody.drop 4 ++ [])) 3 :=
  (c4_first_frame_special demoCodes demoCodesAlt (demoBody.drop 4) [] 3
    (by decide) (by decide) (by decide) (by decide) (by decide) (by decide)).1

/-- C5: a Steim1 body whose final cumulative value differs from the
declared reverse integration constant decodes to a
CompressionIntegrityError carrying the recovered sample sequence, and
that sequence is nonempty whenever at least one frame is present. -/
theorem c5_integrity_error (body : List Nat) (n : Nat)
    (h64 : body.length % 64 = 0) (hne : body.length ≠ 0) (hn : n ≠ 0)
    (hcount : ¬((bodyDiffs body).length + 1 < n))
    (hbad : (steim1Samples body n).getLastD 0 ≠ bodyXn body) :
    Steim1Decode body n =
        .error (.CompressionIntegrityError (steim1Samples body n)) ∧
      0 < (steim1Samples body n).length := by
  constructor
  · unfold Steim1Decode
    rw [if_neg (not_not_intro h64), if_neg hn, if_neg hne, if_neg hcount,
      if_pos hbad]
  · simp [steim1Samples]

theorem c5_integrity_error_witness :
    Steim1Decode demoBadBody 3 =
        .error (.CompressionIntegrityError (steim1Samples demoBadBody 3)) ∧
      0 < (steim1Samples demoBadBody 3).length :=
  c5_integrity_error demoBadBody 3 (by decide) (by decide) (by decide)
    (by decide) (by decide)

/-- C6: a buffer whose first two bytes are not the NP magic, or which is
shorter than the fixed header block, always decodes to MalformedHeader,
both at the header layer and at the packet layer. -/
theorem c6_malformed_header (bytes : List Nat)
    (h : bytes.take 2 ≠ [78, 80] ∨ bytes.length < 37) :
    decode_header bytes = .error .MalformedHeader ∧
      decode_packet bytes = .error .MalformedHeader := by
  have hh : decode_header bytes = .error .MalformedHeader := by
    unfold decode_header
    by_cases hl : bytes.length < 37
    · rw [if_pos hl]
    · rw [if_neg hl]
      rcases h with h | h
      · have h2 : 2 ≤ bytes.length := by omega
        obtain ⟨b0, b1, t, rfl⟩ : ∃ b0 b1 t, bytes = b0 :: b1 :: t := by
          match bytes, h2 with
          | b0 :: b1 :: t, _ => exact ⟨b0, b1, t, rfl⟩
        rw [if_neg (by simpa using h)]
      · omega
  exact ⟨hh, by unfold decode_packet; rw [hh]⟩

theorem c6_malformed_header_witness :
    (([1, 2, 3] : List Nat).take 2 ≠ [78, 80] ∨ ([1, 2, 3] : List Nat).length < 37) ∧
      decode_header [1, 2, 3] = .error .MalformedHeader ∧
      decode_packet [1, 2, 3] = .error .MalformedHeader :=
  ⟨by decide, c6_malformed_header [1, 2, 3] (by decide)⟩

/-- C7: a successful Steim1 decode returns exactly the declared number of
samples, and a frame stream exhausted before reaching that count yields a
LengthMismatch error. -/
theorem c7_sample_count :
    (∀ (body : List Nat) (n : Nat) (s : List Int),
      Steim1Decode body n = .ok s → s.length = n) ∧
    ∀ (body : List Nat) (n : Nat), body.length % 64 = 0 →
      (bodyDiffs body).length + 1 < n →
        Steim1Decode body n = .error .LengthMismatch := by
  constructor
  · exact fun body n s h => steim1_ok_length h
  · intro body n h64 hlt
    unfold Steim1Decode
    rw [if_neg (not_not_intro h64), if_neg (show ¬n = 0 by omega)]
    by_cases hb : body.length = 0
    · rw [if_pos hb]
    · rw [if_neg hb, if_pos hlt]

theorem c7_sample_count_witness :
    Steim1Decode demoBody 3 = .ok [(1 : Int), 3, 2] ∧
      ([(1 : Int), 3, 2]).length = 3 ∧
      Steim1Decode demoBody 5 = .error .LengthMismatch :=
  ⟨by decide, c7_sample_count.1 demoBody 3 [(1 : Int), 3, 2] (by decide),
    c7_sample_count.2 demoBody 5 (by decide) (by decide)⟩

/-- C8: a packet whose payload_media_type byte is not 0x83 decodes to an
UnsupportedMediaType error. -/
theorem c8_unsupported_media (bytes : List Nat) (h : NpHeader)
    (ph : NpPayloadHeader) (hh : decode_header bytes = .ok h)
    (hlen : bytes.length = h.packet_size)
    (hph : decode_payload_header (bytes.drop 37) = .ok ph)
    (hmt : ph.payload_media_type ≠ 131) :
    decode_packet bytes = .error .UnsupportedMediaType := by
  unfold decode_packet
  rw [hh]
  simp only []
  rw [if_neg (not_not_intro hlen), hph]
  simp only []
  rw [if_pos hmt]

theorem c8_unsupported_media_witness :
    decode_packet demoBadMediaBytes = .error .UnsupportedMediaType :=
  c8_unsupported_media demoBadMediaBytes demoHeader demoBadMediaHeader
    (by decide) (by decide) (by decide) (by decide)

/-- C9: a 499-byte-declared packet buffer truncated to 100 bytes decodes
to a MalformedHeader or SizeMismatch error; decode_packet is a total
function of the byte buffer. -/
theorem c9_truncated_buffer (bytes : List Nat) (hlen : bytes.length = 100)
    (hdecl : bytes.getD 2 0 * 256 + bytes.getD 3 0 = 499) :
    decode_packet bytes = .error .MalformedHeader ∨
      decode_packet bytes = .error .SizeMismatch := by
  by_cases hm : bytes.getD 0 0 = 78 ∧ bytes.getD 1 0 = 80
  · right
    unfold decode_packet decode_header
    rw [if_neg (by omega), if_pos hm]
    simp only []
    rw [if_pos (show bytes.length ≠ rd16 bytes 2 by
      rw [show rd16 bytes 2 = 499 from hdecl]; omega)]
  · left
    unfold decode_packet decode_header
    rw [if_neg (by omega), if_neg hm]

theorem c9_truncated_buffer_witness :
    demoTruncated.length = 100 ∧
      demoTruncated.getD 2 0 * 256 + demoTruncated.getD 3 0 = 499 ∧
      (decode_packet demoTruncated = .error .MalformedHeader ∨
        decode_packet demoTruncated = .error .SizeMismatch) :=
  ⟨by decide, by decide, c9_truncated_buffer demoTruncated (by decide) (by decide)⟩

/-- C10 (counterexample): the sample sequence [0, 1] has its single
difference inside [-128, 127], yet the greedy packer emits a code-11
group for it (four 8-bit differences need four leftovers), refuting
"packs those differences four per word with code 01, never a wider
code" as stated for every such sequence. -/
theorem c10_counterexample :
    (∀ d ∈ wdiffs [(0 : Int), 1], fits8 d) ∧
      ¬∀ g ∈ packDiffs (wdiffs [(0 : Int), 1]), groupCode g = 1 := by
  constructor
  · decide
  · decide

/-- C10 (amended): when the differences of a sample sequence all lie in
[-128, 127] and their count is a multiple of four, the encoder packs them
four per word with control code 01 only; in general every emitted group
is faithful to its selected width (8/16/32-bit without overflow). -/
theorem c10_narrow_width (s : List Int) (h8 : ∀ d ∈ wdiffs s, fits8 d)
    (h4 : (wdiffs s).length % 4 = 0) :
    (∀ g ∈ packDiffs (wdiffs s), groupCode g = 1) ∧
      ∀ ds : List Int, (∀ d ∈ ds, fits32 d) → ∀ g ∈ packDiffs ds, GroupFits g :=
  ⟨packDiffs_all8 (wdiffs s).length (wdiffs s) le_rfl h8 h4,
    fun _ hds => packDiffs_fits hds⟩

theorem c10_narrow_width_witness :
    (∀ d ∈ wdiffs [(0 : Int), 1, 2, 3, 4], fits8 d) ∧
      ∀ g ∈ packDiffs (wdiffs [(0 : Int), 1, 2, 3, 4]), groupCode g = 1 :=
  ⟨by decide, (c10_narrow_width [(0 : Int), 1, 2, 3, 4] (by decide) (by decide)).1⟩

end Nmxp
